import Mathlib

/-!
Verification of the training/evaluation driver in `src/mutant/src/tasks/vqa_yn.py`
(the VQA yes/no task script).  Tensors are modelled as rational matrices
(`List (List ℚ)`, row-major, shape B×C); the external network, dataset and
evaluator collaborators are abstracted as function parameters, exactly where the
script itself treats them as opaque.  File writes (checkpoints, result dumps)
are modelled as explicit event lists / map updates, and Python exceptions
(assertion failures, division by zero, missing checkpoint file) as `Except`.
-/

namespace VqaYn

/-- A row-major rational matrix modelling a 2-D tensor of shape B×C. -/
abbrev Mat := List (List ℚ)

/-- `t.size(1)` for a 2-D tensor: the number of columns (length of a row). -/
def size1 (m : Mat) : ℕ := (m.headD []).length

/-- All aligned entry pairs of two equal-shaped matrices, flattened. -/
def zipEntries (x t : Mat) : List (ℚ × ℚ) :=
  (x.zip t).flatMap fun rt => rt.1.zip rt.2

/-- `nn.BCEWithLogitsLoss()` with its default mean reduction: the mean over all
entries of the per-entry binary cross-entropy with logits `ell`.  The per-entry
function is transcendental (sigmoid/log) and supplied by the external framework,
so it is kept abstract as the parameter `ell`; the mean reduction over all B·C
entries is modelled concretely. -/
def bceMean (ell : ℚ → ℚ → ℚ) (x t : Mat) : ℚ :=
  ((zipEntries x t).map fun p => ell p.1 p.2).sum / ((zipEntries x t).length : ℚ)

/-- Lines 102-108 of `vqa_yn.py` (`VQA.train`, per-batch loss):
`loss = self.bce_loss(logit, target)`, `loss = loss * logit.size(1)`,
`loss_yn = self.bce_loss(yn_type_logit, yntypetarget)`,
`loss_yn = loss_yn * yn_type_logit.size(1)`, `loss = 0.9*loss + 0.1*loss_yn`. -/
def trainStepLoss (ell : ℚ → ℚ → ℚ) (logit target ynTypeLogit ynTypeTarget : Mat) : ℚ :=
  let loss := bceMean ell logit target
  let loss := loss * (size1 logit : ℚ)
  let lossYn := bceMean ell ynTypeLogit ynTypeTarget
  let lossYn := lossYn * (size1 ynTypeLogit : ℚ)
  (9/10) * loss + (1/10) * lossYn

/-- Lines 99-100 of `vqa_yn.py`: the chained Python assertion
`a == b == 2` means `(a == b) and (b == 2)`. -/
def chainedDimEq (a b : ℕ) : Bool := a == b && b == 2

/-- The two assertions of `VQA.train` executed after the forward pass,
applied to the shape (list of dimension sizes) of each tensor:
`assert logit.dim() == target.dim() == 2` and
`assert yn_type_logit.dim() == yntypetarget.dim() == 2`.
Returns `true` iff both assertions pass (`dim()` is the rank, i.e. the
length of the shape list). -/
def trainAsserts (logitShape targetShape ynLogitShape ynTargetShape : List ℕ) : Bool :=
  chainedDimEq logitShape.length targetShape.length &&
    chainedDimEq ynLogitShape.length ynTargetShape.length

/-- A checkpoint-save event of the training loop: `self.save("BEST")` inside the
epoch loop (tagged with the epoch index) or `self.save("LAST")` after it. -/
inductive SaveEvent where
  | best (epoch : ℕ)
  | last
deriving DecidableEq, Repr

/-- One epoch of the validation/best-checkpoint logic of `VQA.train`
(lines 121-125): when a validation tuple is configured (`valid = some f`,
where `f e` is the validation score `self.evaluate(eval_tuple)` computed at
epoch `e`), compare it with the running best and save a "BEST" checkpoint on
strict improvement; when `valid = none`, the epoch does nothing to this state. -/
def trainEpochStep (valid : Option (ℕ → ℚ)) (st : ℚ × List SaveEvent) (e : ℕ) :
    ℚ × List SaveEvent :=
  match valid with
  | none => st
  | some f => if f e > st.1 then (f e, st.2 ++ [SaveEvent.best e]) else st

/-- The checkpoint/best-score behaviour of `VQA.train` (lines 89-137):
`best_valid = 0.`, the epoch loop over `range(args.epochs)`, saving "BEST"
on strict improvement when validation is configured, then `self.save("LAST")`
and `return best_valid`.  Returns the final `best_valid` and the chronological
list of checkpoint-save events. -/
def train (epochs : ℕ) (valid : Option (ℕ → ℚ)) : ℚ × List SaveEvent :=
  let r := (List.range epochs).foldl (trainEpochStep valid) (0, [])
  (r.1, r.2 ++ [SaveEvent.last])

/-- The running best before epoch `e`: `best_valid` starts at 0.0 and is the
maximum of 0 and the validation scores of the earlier epochs. -/
def runningBest (f : ℕ → ℚ) (e : ℕ) : ℚ :=
  ((List.range e).map f).foldl max 0

/-- One batch of an evaluation loader together with the external model's
outputs on it: `ques_id`, the answer logits `logit` (one row per example),
the yes/no-type logits `yn_type_logit` and their targets `yesnotypetargets`.
The network is external, so its outputs are carried as data. -/
structure PBatch where
  quesIds : List ℕ
  logit : Mat
  ynTypeLogit : Mat
  ynTypeTargets : Mat
deriving DecidableEq, Repr

/-- `score, label = logit.max(1)` for one row: the index of the (first)
maximal entry. -/
def argmaxRow (r : List ℚ) : ℕ :=
  (List.range r.length).foldl (fun b i => if r.getD i 0 > r.getD b 0 then i else b) 0

/-- Python dict assignment `quesid2ans[qid] = ans` on an insertion-ordered
association list: replace the value if the key is present, else append. -/
def dictInsert (m : List (ℕ × String)) (k : ℕ) (v : String) : List (ℕ × String) :=
  if m.any fun p => p.1 == k then
    m.map fun p => if p.1 == k then (k, v) else p
  else
    m ++ [(k, v)]

/-- The keys of the modelled Python dict, in insertion order. -/
def dictKeys (m : List (ℕ × String)) : List ℕ := m.map Prod.fst

/-- Per-batch yes/no-type accuracy (line 164 of `vqa_yn.py`):
`torch.mean(torch.eq((yn_type_logit>0.5).float(), yesnotypetargets).float())`,
the fraction of entries where the thresholded prediction equals the target. -/
def batchYnMean (ynLogit ynTargets : Mat) : ℚ :=
  (((zipEntries ynLogit ynTargets).countP fun p =>
      decide ((if p.1 > 1/2 then (1 : ℚ) else 0) = p.2)) : ℚ)
    / ((zipEntries ynLogit ynTargets).length : ℚ)

/-- The loop state of `VQA.predict`: `quesid2ans`, `yn_type_accuracy`,
`num_batches`. -/
structure PredState where
  quesid2ans : List (ℕ × String)
  ynTypeAccuracy : ℚ
  numBatches : ℕ

/-- One iteration of the `VQA.predict` loop (lines 154-165): record
`dset.label2ans[argmax]` under each question id via `zip(ques_id, label)`,
accumulate the per-batch yes/no accuracy, and count the batch. -/
def predictBatchStep (label2ans : ℕ → String) (st : PredState) (b : PBatch) : PredState :=
  let labels := b.logit.map argmaxRow
  { quesid2ans :=
      (b.quesIds.zip labels).foldl (fun m p => dictInsert m p.1 (label2ans p.2)) st.quesid2ans,
    ynTypeAccuracy := st.ynTypeAccuracy + batchYnMean b.ynTypeLogit b.ynTypeTargets,
    numBatches := st.numBatches + 1 }

/-- `VQA.predict` (lines 139-171): run the batch loop, print
`yn_type_accuracy/num_batches` (a Python `ZeroDivisionError`, modelled as
`Except.error`, when `num_batches` is 0), then dump iff a dump path was given
and return `quesid2ans`.  The normal result is the returned mapping, the
printed accuracy, and the list of dump paths written. -/
def predict (label2ans : ℕ → String) (batches : List PBatch) (dump : Option String) :
    Except Unit (List (ℕ × String) × ℚ × List String) :=
  let st := batches.foldl (predictBatchStep label2ans) ⟨[], 0, 0⟩
  if st.numBatches = 0 then
    Except.error ()
  else
    Except.ok (st.quesid2ans, st.ynTypeAccuracy / (st.numBatches : ℚ),
      match dump with
      | none => []
      | some p => [p])

/-- The unweighted mean of a list, following the spec's words: the
batch-of-batches mean averages the per-batch means with equal weight. -/
def listMean (xs : List ℚ) : ℚ := xs.sum / (xs.length : ℚ)

/-- `os.path.join` for the relative second arguments used in this script. -/
def joinPath (a b : String) : String := a ++ "/" ++ b

/-- The state touched by `VQA.save`/`VQA.load`: the model's parameter snapshot
(`state_dict`, opaque type `P`) and the filesystem as a map from path to the
parameter snapshot stored there. -/
structure CkptState (P : Type) where
  params : P
  fs : String → Option P

/-- `VQA.save` (lines 190-193): write the current parameters to
`os.path.join(self.output, "%s.pth" % name)`. -/
def save {P : Type} (output name : String) (st : CkptState P) : CkptState P :=
  { st with
    fs := fun p => if p = joinPath output (name ++ ".pth") then some st.params else st.fs p }

/-- `VQA.load` (lines 195-198): read `"%s.pth" % path` and install the stored
parameters into the model; a missing file is a fatal error. -/
def load {P : Type} (path : String) (st : CkptState P) : Except Unit (CkptState P) :=
  match st.fs (path ++ ".pth") with
  | none => Except.error ()
  | some ps => Except.ok { st with params := ps }

/-- `'test' in args.test` / `'val' in args.test`: substring containment. -/
def strIn (needle hay : String) : Bool := decide (needle.data <:+: hay.data)

/-- The four test-mode branches of the `__main__` block and the final
`assert False` fallback. -/
inductive TestBranch where
  | testPredict
  | multiNopsSweep
  | singleNopsSweep
  | dumpValPredict
  | fatalAssert
deriving DecidableEq, Repr

/-- The `if/elif/elif/elif/else` chain of the `__main__` test mode
(lines 213-253), with `args.nops` modelled as the integer the script reads it
as (`int(args.nops)`; the spec calls it the "nops" variant count):
(a) `'test' in args.test`;
(b) `int(args.nops)>1 and 'val' in args.test and not args.dump`;
(c) `'val' in args.test and not args.dump and args.nops==1`;
(d) `'val' in args.test and args.dump`; else `assert False`. -/
def selectTestBranch (test : String) (nops : ℤ) (dump : Bool) : TestBranch :=
  if strIn "test" test then TestBranch.testPredict
  else if nops > 1 && strIn "val" test && !dump then TestBranch.multiNopsSweep
  else if strIn "val" test && !dump && nops == 1 then TestBranch.singleNopsSweep
  else if strIn "val" test && dump then TestBranch.dumpValPredict
  else TestBranch.fatalAssert

/-- The same four guard conditions in source order, paired with their
branches, for stating the first-match precedence claim. -/
def branchGuards (test : String) (nops : ℤ) (dump : Bool) : List (TestBranch × Bool) :=
  [(TestBranch.testPredict, strIn "test" test),
   (TestBranch.multiNopsSweep, nops > 1 && strIn "val" test && !dump),
   (TestBranch.singleNopsSweep, strIn "val" test && !dump && nops == 1),
   (TestBranch.dumpValPredict, strIn "val" test && dump)]

/-- The branch whose guard is the first to hold in source order, or the fatal
assertion when none holds — the spec's reading of the `elif` chain. -/
def firstMatchingBranch (test : String) (nops : ℤ) (dump : Bool) : TestBranch :=
  (((branchGuards test nops dump).find? fun g => g.2).map Prod.fst).getD TestBranch.fatalAssert

/-- The dump events of the multi-folder multi-nops sweep (branch (b),
lines 219-230): for `data` in `["varlenlol","varlencwl"]`, for `nops` in
`range(2,6)`, evaluate with `dump=os.path.join(args.output,
'yn_val_predict.json')`.  The external evaluation's dumped predictions for a
(folder, nops) configuration are abstracted as `pred folder nops`; each event
is (path written, content written). -/
def multiNopsSweepDumps {α : Type} (output : String) (pred : String → ℤ → α) :
    List (String × α) :=
  (["varlenlol", "varlencwl"].flatMap fun data =>
    ([2, 3, 4, 5] : List ℤ).map fun nops =>
      (joinPath output "yn_val_predict.json", pred data nops))

/-- The dump events of the single-nops sweep (branch (c), lines 232-245):
for `data` in `["flipped_lol","ordered_lol","flipped_cwl","ordered_cwl"]`,
evaluate with `dump=os.path.join(args.output, 'yn_val_predict.json')` at the
configured `args.nops`. -/
def singleNopsSweepDumps {α : Type} (output : String) (nops : ℤ) (pred : String → ℤ → α) :
    List (String × α) :=
  (["flipped_lol", "ordered_lol", "flipped_cwl", "ordered_cwl"].map fun data =>
    (joinPath output "yn_val_predict.json", pred data nops))

/-- Writing one dump file: `evaluator.dump_result` replaces the file at the
given path whole. -/
def writeDump {α : Type} (fs : String → Option α) (ev : String × α) : String → Option α :=
  fun p => if p = ev.1 then some ev.2 else fs p

/-- The filesystem after a sweep's dump events are written in order. -/
def runDumps {α : Type} (fs : String → Option α) (evs : List (String × α)) :
    String → Option α :=
  evs.foldl writeDump fs

end VqaYn

namespace VqaYn

/-- The validation-score sequence of the spec's worked example:
scores 0.2, 0.5, 0.3, 0.7 at epochs 0..3. -/
def exampleScores : ℕ → ℚ := fun e =>
  ([mkRat 1 5, mkRat 1 2, mkRat 3 10, mkRat 7 10] : List ℚ).getD e 0

/-- Claim C1: in each training batch, the scalar loss computed before the
backward pass equals `0.9·C1·BCE(A,TA) + 0.1·C2·BCE(Y,TY)`, where `BCE` is
mean-reduced binary cross-entropy with logits, `C1 = A.size(1)` and
`C2 = Y.size(1)`. -/
theorem trainStepLoss_eq_weighted_bce (ell : ℚ → ℚ → ℚ) (A TA Y TY : Mat) :
    trainStepLoss ell A TA Y TY =
      (9/10) * (size1 A : ℚ) * bceMean ell A TA +
        (1/10) * (size1 Y : ℚ) * bceMean ell Y TY := by
  simp only [trainStepLoss]
  ring

end VqaYn

namespace VqaYn

/-- Claim C3, counterexample: the assertions of `VQA.train` pass on answer
logits of shape 2×3 against an answer target of shape 2×4 — a shape mismatch
that the claim says would be caught — because they only compare ranks. -/
theorem trainAsserts_pass_on_shape_mismatch :
    trainAsserts [2, 3] [2, 4] [2, 2] [2, 2] = true ∧ ([2, 3] : List ℕ) ≠ [2, 4] := by
  decide

/-- Claim C3, amended: the assertions executed after the forward pass check
only tensor ranks — they pass exactly when all four tensors are 2-dimensional —
so a rank mismatch fails fatally before the loss, but an equal-rank shape
mismatch is not caught by them. -/
theorem trainAsserts_iff_rank_two (ls ts ys yts : List ℕ) :
    trainAsserts ls ts ys yts = true ↔
      ls.length = 2 ∧ ts.length = 2 ∧ ys.length = 2 ∧ yts.length = 2 := by
  simp only [trainAsserts, chainedDimEq, Bool.and_eq_true, beq_iff_eq]
  omega

/-- Folding the epoch step with no validation tuple configured leaves the
state unchanged. -/
theorem foldl_trainEpochStep_none (l : List ℕ) (st : ℚ × List SaveEvent) :
    l.foldl (trainEpochStep none) st = st := by
  induction l generalizing st with
  | nil => rfl
  | cons x xs ih => simpa [trainEpochStep] using ih st

/-- Claim C7: with no validation DataTuple configured, `train` never saves a
"BEST" checkpoint, still saves a "LAST" checkpoint after the final epoch, and
returns exactly 0.0. -/
theorem train_no_valid_tuple (epochs : ℕ) :
    (train epochs none).1 = 0 ∧
      (∀ e, SaveEvent.best e ∉ (train epochs none).2) ∧
      SaveEvent.last ∈ (train epochs none).2 := by
  simp [train, foldl_trainEpochStep_none]

/-- Claim C9: on a loader yielding zero batches, `num_batches` stays 0 and
`predict` hits the division by zero in `yn_type_accuracy/num_batches`,
failing before any dump is written and before the mapping is returned. -/
theorem predict_empty_loader_error (label2ans : ℕ → String) (dump : Option String) :
    (([] : List PBatch).foldl (predictBatchStep label2ans) ⟨[], 0, 0⟩).numBatches = 0 ∧
      predict label2ans [] dump = Except.error () := by
  exact ⟨rfl, rfl⟩

/-- Claim C6: after `save name` records the parameters to
`<output>/<name>.pth`, any mutation of the parameters followed by
`load (<output>/<name>)` restores every parameter to its value at save time. -/
theorem save_load_roundtrip {P : Type} (output name : String) (st : CkptState P) (p' : P) :
    ∃ st', load (joinPath output name) { save output name st with params := p' } =
        Except.ok st' ∧ st'.params = st.params := by
  refine ⟨⟨st.params, (save output name st).fs⟩, ?_, rfl⟩
  simp [load, save, joinPath, String.append_assoc]

end VqaYn


namespace VqaYn

/-- The running best over one more epoch is the max of the previous running
best and that epoch's score. -/
theorem runningBest_succ (f : ℕ → ℚ) (e : ℕ) :
    runningBest f (e + 1) = max (runningBest f e) (f e) := by
  simp [runningBest, List.range_succ]

/-- Folding `max` over a list lands on the seed or on a list element. -/
theorem foldl_max_mem (a : ℚ) (l : List ℚ) : l.foldl max a ∈ a :: l := by
  induction l generalizing a with
  | nil => simp
  | cons x xs ih =>
    rw [List.foldl_cons]
    rcases List.mem_cons.mp (ih (max a x)) with h | h
    · rcases max_choice a x with hc | hc
      · rw [h, hc]
        exact List.mem_cons_self _ _
      · rw [h, hc]
        exact List.mem_cons_of_mem _ (List.mem_cons_self _ _)
    · exact List.mem_cons_of_mem _ (List.mem_cons_of_mem _ h)

/-- The seed and every list element are bounded by the `max`-fold. -/
theorem le_foldl_max (a : ℚ) (l : List ℚ) :
    a ≤ l.foldl max a ∧ ∀ s ∈ l, s ≤ l.foldl max a := by
  induction l generalizing a with
  | nil => simp
  | cons x xs ih =>
    rw [List.foldl_cons]
    rcases ih (max a x) with ⟨h1, h2⟩
    refine ⟨le_trans (le_max_left a x) h1, ?_⟩
    intro s hs
    rcases List.mem_cons.mp hs with h | h
    · subst h
      exact le_trans (le_max_right _ _) h1
    · exact h2 s h

/-- Invariant of the epoch fold of `train` with validation configured: the
first component is the running best, and a "BEST" save for epoch `e` was
emitted exactly when `e` has run and its score strictly beat the running best
at the time. -/
theorem train_fold_invariant (f : ℕ → ℚ) (n : ℕ) :
    ((List.range n).foldl (trainEpochStep (some f)) (0, [])).1 = runningBest f n ∧
      ∀ e, SaveEvent.best e ∈ ((List.range n).foldl (trainEpochStep (some f)) (0, [])).2 ↔
        e < n ∧ runningBest f e < f e := by
  induction n with
  | zero => simp [runningBest]
  | succ n ih =>
    rcases ih with ⟨ih1, ih2⟩
    rw [List.range_succ, List.foldl_append, List.foldl_cons, List.foldl_nil]
    constructor
    · rw [trainEpochStep, runningBest_succ]
      split
      · rename_i h
        rw [ih1] at h
        exact (max_eq_right (le_of_lt h)).symm
      · rename_i h
        rw [ih1] at h
        simp only [ih1]
        exact (max_eq_left (not_lt.mp (by simpa using h))).symm
    · intro e
      rw [trainEpochStep]
      split
      · rename_i h
        rw [ih1] at h
        simp only [List.mem_append, List.mem_singleton, ih2, SaveEvent.best.injEq]
        constructor
        · rintro (⟨he, hb⟩ | rfl)
          · exact ⟨by omega, hb⟩
          · exact ⟨by omega, h⟩
        · rintro ⟨he, hb⟩
          by_cases he' : e = n
          · exact Or.inr he'
          · exact Or.inl ⟨by omega, hb⟩
      · rename_i h
        rw [ih1] at h
        rw [ih2]
        constructor
        · rintro ⟨he, hb⟩
          exact ⟨by omega, hb⟩
        · rintro ⟨he, hb⟩
          refine ⟨?_, hb⟩
          rcases Nat.lt_succ_iff_lt_or_eq.mp he with he' | he'
          · exact he'
          · subst he'
            exact absurd hb h

/-- Claim C2: with a validation tuple configured, `train` saves "BEST" at
exactly the epochs whose validation score strictly exceeds the running maximum
(started at 0.0), and — validation scores being nonnegative accuracies — the
returned value is the maximum score observed (it occurs among the scores and
bounds them all). -/
theorem train_best_checkpoint_spec (f : ℕ → ℚ) (epochs : ℕ) (hpos : 0 < epochs)
    (hnn : ∀ e ∈ List.range epochs, 0 ≤ f e) :
    (∀ e, SaveEvent.best e ∈ (train epochs (some f)).2 ↔
        e < epochs ∧ runningBest f e < f e) ∧
      (train epochs (some f)).1 ∈ (List.range epochs).map f ∧
      ∀ s ∈ (List.range epochs).map f, s ≤ (train epochs (some f)).1 := by
  rcases train_fold_invariant f epochs with ⟨h1, h2⟩
  refine ⟨?_, ?_, ?_⟩
  · intro e
    simp only [train, List.mem_append, List.mem_singleton]
    rw [← h2 e]
    simp
  · show ((List.range epochs).foldl (trainEpochStep (some f)) (0, [])).1 ∈
      (List.range epochs).map f
    rw [h1, runningBest]
    rcases List.mem_cons.mp (foldl_max_mem 0 ((List.range epochs).map f)) with h0 | hmem
    · have h00 : f 0 ∈ (List.range epochs).map f :=
        List.mem_map_of_mem f (List.mem_range.mpr hpos)
      have hle : f 0 ≤ ((List.range epochs).map f).foldl max 0 :=
        (le_foldl_max 0 _).2 _ h00
      have hge : 0 ≤ f 0 := hnn 0 (List.mem_range.mpr hpos)
      have heq : ((List.range epochs).map f).foldl max 0 = f 0 := by
        rw [h0]
        exact le_antisymm hge (h0 ▸ hle)
      rw [heq]
      exact h00
    · exact hmem
  · intro s hs
    show s ≤ ((List.range epochs).foldl (trainEpochStep (some f)) (0, [])).1
    rw [h1, runningBest]
    exact (le_foldl_max 0 _).2 s hs

/-- Witness for C2 at the spec's example scores 0.2, 0.5, 0.3, 0.7: the
hypotheses hold, the general characterization applies, and concretely the
"BEST" saves happen at epochs 0, 1, 3 with returned best 0.7. -/
theorem train_best_checkpoint_spec_witness :
    (0 < 4 ∧ ∀ e ∈ List.range 4, 0 ≤ exampleScores e) ∧
      ((∀ e, SaveEvent.best e ∈ (train 4 (some exampleScores)).2 ↔
          e < 4 ∧ runningBest exampleScores e < exampleScores e) ∧
        (train 4 (some exampleScores)).1 ∈ (List.range 4).map exampleScores ∧
        ∀ s ∈ (List.range 4).map exampleScores, s ≤ (train 4 (some exampleScores)).1) ∧
      (train 4 (some exampleScores)).2 =
        [SaveEvent.best 0, SaveEvent.best 1, SaveEvent.best 3, SaveEvent.last] ∧
      (train 4 (some exampleScores)).1 = mkRat 7 10 :=
  ⟨⟨by decide, by decide⟩,
    train_best_checkpoint_spec exampleScores 4 (by decide) (by decide),
    by decide, by decide⟩

end VqaYn

namespace VqaYn

/-- The predict fold accumulates the sum of per-batch yes/no means and counts
the batches. -/
theorem predict_foldl_acc (label2ans : ℕ → String) (bs : List PBatch) (st : PredState) :
    (bs.foldl (predictBatchStep label2ans) st).ynTypeAccuracy =
        st.ynTypeAccuracy + (bs.map fun b => batchYnMean b.ynTypeLogit b.ynTypeTargets).sum ∧
      (bs.foldl (predictBatchStep label2ans) st).numBatches = st.numBatches + bs.length := by
  induction bs generalizing st with
  | nil => simp
  | cons b bs ih =>
    rw [List.foldl_cons]
    rcases ih (predictBatchStep label2ans st b) with ⟨h1, h2⟩
    constructor
    · rw [h1]
      simp [predictBatchStep]
      ring
    · rw [h2]
      simp [predictBatchStep]
      omega

/-- Claim C4: on a nonempty loader, the yes/no-type accuracy printed by
`predict` is the unweighted mean over batches of the per-batch mean of the
exact-match indicator between thresholded (>0.5) predictions and targets —
every batch weighs equally, regardless of its sample count. -/
theorem predict_yn_accuracy_batch_mean (label2ans : ℕ → String) (bs : List PBatch)
    (dump : Option String) (h : bs ≠ []) :
    ∃ m ds, predict label2ans bs dump =
      Except.ok (m, listMean (bs.map fun b => batchYnMean b.ynTypeLogit b.ynTypeTargets), ds) := by
  rcases predict_foldl_acc label2ans bs ⟨[], 0, 0⟩ with ⟨h1, h2⟩
  refine ⟨(bs.foldl (predictBatchStep label2ans) ⟨[], 0, 0⟩).quesid2ans,
    (match dump with
      | none => []
      | some p => [p]), ?_⟩
  simp only [predict, h1, h2]
  rw [if_neg (by simpa using h)]
  simp [listMean]

/-- Witness for C4 on a one-batch loader. -/
theorem predict_yn_accuracy_batch_mean_witness :
    ([⟨[7], [[1, 0]], [[1]], [[1]]⟩] : List PBatch) ≠ [] ∧
      ∃ m ds, predict (fun _ => "yes") [⟨[7], [[1, 0]], [[1]], [[1]]⟩] none =
        Except.ok (m,
          listMean (([⟨[7], [[1, 0]], [[1]], [[1]]⟩] : List PBatch).map fun b =>
            batchYnMean b.ynTypeLogit b.ynTypeTargets), ds) :=
  ⟨by decide, predict_yn_accuracy_batch_mean (fun _ => "yes") _ none (by decide)⟩

end VqaYn

namespace VqaYn

/-- The membership test of `dictInsert` agrees with key membership. -/
theorem any_beq_eq_mem_dictKeys (m : List (ℕ × String)) (k : ℕ) :
    (m.any fun p => p.1 == k) = true ↔ k ∈ dictKeys m := by
  simp only [List.any_eq_true, beq_iff_eq, dictKeys, List.mem_map]

/-- Inserting into the modelled Python dict keeps the keys unchanged when the
key is present and appends it otherwise. -/
theorem dictKeys_dictInsert (m : List (ℕ × String)) (k : ℕ) (v : String) :
    dictKeys (dictInsert m k v) =
      if k ∈ dictKeys m then dictKeys m else dictKeys m ++ [k] := by
  unfold dictInsert
  by_cases h : k ∈ dictKeys m
  · rw [if_pos ((any_beq_eq_mem_dictKeys m k).mpr h), if_pos h]
    simp only [dictKeys, List.map_map]
    apply List.map_congr_left
    intro p hp
    by_cases hpk : p.1 = k
    · simp [Function.comp, hpk]
    · simp [Function.comp, hpk]
  · rw [if_neg (fun hc => h ((any_beq_eq_mem_dictKeys m k).mp hc)), if_neg h]
    simp [dictKeys]

/-- Key membership after a dict insertion. -/
theorem mem_dictKeys_dictInsert (m : List (ℕ × String)) (k q : ℕ) (v : String) :
    q ∈ dictKeys (dictInsert m k v) ↔ q = k ∨ q ∈ dictKeys m := by
  rw [dictKeys_dictInsert]
  by_cases h : k ∈ dictKeys m
  · rw [if_pos h]
    constructor
    · exact Or.inr
    · rintro (rfl | hq)
      · exact h
      · exact hq
  · rw [if_neg h]
    simp [or_comm]

/-- Dict insertion preserves key distinctness. -/
theorem nodup_dictKeys_dictInsert (m : List (ℕ × String)) (k : ℕ) (v : String)
    (h : (dictKeys m).Nodup) : (dictKeys (dictInsert m k v)).Nodup := by
  rw [dictKeys_dictInsert]
  by_cases hk : k ∈ dictKeys m
  · rw [if_pos hk]
    exact h
  · rw [if_neg hk]
    simp [List.nodup_append, h, hk]

/-- Key membership after folding dict insertions over a list of
(question id, label) pairs. -/
theorem foldl_dictInsert_mem (label2ans : ℕ → String) (ps : List (ℕ × ℕ))
    (m : List (ℕ × String)) (q : ℕ) :
    q ∈ dictKeys (ps.foldl (fun m p => dictInsert m p.1 (label2ans p.2)) m) ↔
      q ∈ dictKeys m ∨ q ∈ ps.map Prod.fst := by
  induction ps generalizing m with
  | nil => simp
  | cons p ps ih =>
    rw [List.foldl_cons, ih, mem_dictKeys_dictInsert]
    simp only [List.map_cons, List.mem_cons]
    tauto

/-- Folding dict insertions preserves key distinctness. -/
theorem foldl_dictInsert_nodup (label2ans : ℕ → String) (ps : List (ℕ × ℕ))
    (m : List (ℕ × String)) (h : (dictKeys m).Nodup) :
    (dictKeys (ps.foldl (fun m p => dictInsert m p.1 (label2ans p.2)) m)).Nodup := by
  induction ps generalizing m with
  | nil => exact h
  | cons p ps ih => exact ih _ (nodup_dictKeys_dictInsert _ _ _ h)

/-- Key membership of the mapping built by the `predict` batch loop. -/
theorem predict_foldl_keys_mem (label2ans : ℕ → String) (bs : List PBatch)
    (st : PredState) (q : ℕ) :
    q ∈ dictKeys (bs.foldl (predictBatchStep label2ans) st).quesid2ans ↔
      q ∈ dictKeys st.quesid2ans ∨
        ∃ b ∈ bs, q ∈ (b.quesIds.zip (b.logit.map argmaxRow)).map Prod.fst := by
  induction bs generalizing st with
  | nil => simp
  | cons b bs ih =>
    rw [List.foldl_cons, ih]
    rw [show (predictBatchStep label2ans st b).quesid2ans =
        (b.quesIds.zip (b.logit.map argmaxRow)).foldl
          (fun m p => dictInsert m p.1 (label2ans p.2)) st.quesid2ans from rfl]
    rw [foldl_dictInsert_mem]
    constructor
    · rintro ((hA | hZ) | ⟨b', hb', hZ'⟩)
      · exact Or.inl hA
      · exact Or.inr ⟨b, List.mem_cons_self b bs, hZ⟩
      · exact Or.inr ⟨b', List.mem_cons_of_mem b hb', hZ'⟩
    · rintro (hA | ⟨b', hb', hZ'⟩)
      · exact Or.inl (Or.inl hA)
      · rcases List.mem_cons.mp hb' with rfl | hmem
        · exact Or.inl (Or.inr hZ')
        · exact Or.inr ⟨b', hmem, hZ'⟩

/-- The `predict` batch loop preserves key distinctness of the mapping. -/
theorem predict_foldl_keys_nodup (label2ans : ℕ → String) (bs : List PBatch)
    (st : PredState) (h : (dictKeys st.quesid2ans).Nodup) :
    (dictKeys (bs.foldl (predictBatchStep label2ans) st).quesid2ans).Nodup := by
  induction bs generalizing st with
  | nil => exact h
  | cons b bs ih =>
    rw [List.foldl_cons]
    exact ih _ (foldl_dictInsert_nodup _ _ _ h)

/-- Claim C5: called without a dump path on a nonempty loader (whose batches
satisfy the network contract that the logit tensor has one row per question
id), `predict` writes no dump file and returns a mapping whose key set is
exactly the question ids of the loader's batches, each appearing once. -/
theorem predict_no_dump (label2ans : ℕ → String) (bs : List PBatch)
    (h1 : bs ≠ []) (h2 : ∀ b ∈ bs, b.logit.length = b.quesIds.length) :
    ∃ m acc, predict label2ans bs none = Except.ok (m, acc, []) ∧
      (dictKeys m).Nodup ∧ ∀ q, q ∈ dictKeys m ↔ ∃ b ∈ bs, q ∈ b.quesIds := by
  refine ⟨(bs.foldl (predictBatchStep label2ans) ⟨[], 0, 0⟩).quesid2ans,
    (bs.foldl (predictBatchStep label2ans) ⟨[], 0, 0⟩).ynTypeAccuracy /
      (((bs.foldl (predictBatchStep label2ans) ⟨[], 0, 0⟩).numBatches : ℕ) : ℚ),
    ?_, ?_, ?_⟩
  · have hnb := (predict_foldl_acc label2ans bs ⟨[], 0, 0⟩).2
    simp only [predict]
    rw [if_neg (by rw [hnb]; simpa using h1)]
  · exact predict_foldl_keys_nodup _ _ _ (by simp [dictKeys])
  · intro q
    rw [predict_foldl_keys_mem]
    constructor
    · rintro (hfalse | ⟨b, hb, hq⟩)
      · simp [dictKeys] at hfalse
      · refine ⟨b, hb, ?_⟩
        rw [List.map_fst_zip] at hq
        · exact hq
        · simp [List.length_map, h2 b hb]
    · rintro ⟨b, hb, hq⟩
      refine Or.inr ⟨b, hb, ?_⟩
      rw [List.map_fst_zip]
      · exact hq
      · simp [List.length_map, h2 b hb]

/-- Witness for C5 on a one-batch loader with two question ids. -/
theorem predict_no_dump_witness :
    (([⟨[3, 4], [[1, 0], [0, 1]], [[1]], [[1]]⟩] : List PBatch) ≠ [] ∧
      ∀ b ∈ ([⟨[3, 4], [[1, 0], [0, 1]], [[1]], [[1]]⟩] : List PBatch),
        b.logit.length = b.quesIds.length) ∧
      ∃ m acc,
        predict (fun _ => "no") [⟨[3, 4], [[1, 0], [0, 1]], [[1]], [[1]]⟩] none =
          Except.ok (m, acc, []) ∧ (dictKeys m).Nodup ∧
          ∀ q, q ∈ dictKeys m ↔
            ∃ b ∈ ([⟨[3, 4], [[1, 0], [0, 1]], [[1]], [[1]]⟩] : List PBatch),
              q ∈ b.quesIds :=
  ⟨⟨by decide, by decide⟩, predict_no_dump (fun _ => "no") _ (by decide) (by decide)⟩

end VqaYn

namespace VqaYn

/-- Claim C8: the test-mode `if/elif` chain selects exactly the first guard
that matches in source order — (a) 'test' in selector; (b) nops>1, 'val' in
selector, no dump; (c) 'val' in selector, no dump, nops==1; (d) 'val' in
selector with dump — and falls through to the fatal `assert False`
(non-zero exit) when no guard matches. -/
theorem selectTestBranch_first_match (test : String) (nops : ℤ) (dump : Bool) :
    selectTestBranch test nops dump = firstMatchingBranch test nops dump := by
  unfold selectTestBranch firstMatchingBranch branchGuards
  cases hT : strIn "test" test <;>
    cases hV : strIn "val" test <;>
      cases hD : dump <;>
        cases hG : decide (nops > 1) <;>
          cases hE : nops == 1 <;>
            simp [hT, hV, hD, hG, hE, List.find?]

/-- Claim C10: in both validation-sweep branches every iteration passes the
same dump path `<output>/yn_val_predict.json`, so each dump overwrites the
previous one and after the sweep the file holds only the final
configuration's predictions — ("varlencwl", nops=5) for the multi-nops sweep
and ("ordered_cwl", configured nops) for the single-nops sweep. -/
theorem sweep_dumps_overwrite {α : Type} (output : String) (nops : ℤ)
    (pred : String → ℤ → α) (fs : String → Option α) :
    (∀ ev ∈ multiNopsSweepDumps output pred,
        ev.1 = joinPath output "yn_val_predict.json") ∧
      runDumps fs (multiNopsSweepDumps output pred)
          (joinPath output "yn_val_predict.json") = some (pred "varlencwl" 5) ∧
      (∀ ev ∈ singleNopsSweepDumps output nops pred,
        ev.1 = joinPath output "yn_val_predict.json") ∧
      runDumps fs (singleNopsSweepDumps output nops pred)
          (joinPath output "yn_val_predict.json") = some (pred "ordered_cwl" nops) := by
  refine ⟨?_, ?_, ?_, ?_⟩
  · intro ev hev
    have h8 : (multiNopsSweepDumps output pred).map Prod.fst =
        List.replicate 8 (joinPath output "yn_val_predict.json") := rfl
    have hm : ev.1 ∈ (multiNopsSweepDumps output pred).map Prod.fst :=
      List.mem_map_of_mem Prod.fst hev
    rw [h8] at hm
    exact List.eq_of_mem_replicate hm
  · simp [runDumps, multiNopsSweepDumps, writeDump]
  · intro ev hev
    have h4 : (singleNopsSweepDumps output nops pred).map Prod.fst =
        List.replicate 4 (joinPath output "yn_val_predict.json") := rfl
    have hm : ev.1 ∈ (singleNopsSweepDumps output nops pred).map Prod.fst :=
      List.mem_map_of_mem Prod.fst hev
    rw [h4] at hm
    exact List.eq_of_mem_replicate hm
  · simp [runDumps, singleNopsSweepDumps, writeDump]

end VqaYn
